import Mathlib

/-!
Shallow embedding of the polar-core goal-resolution and unification engine
(`src/polar-core/src/query.rs`): the term/value data model, binding frames,
the `walk`, `unify` and `isa` algorithms, goal composition (boolean literals,
unify/eq and conjunction operations, calls), call resolution against a
knowledge base, and the top-level query projection.

Unbounded behaviours of the source (recursive `walk` chains, rule bodies run
through `Call`) are made total with an explicit fuel parameter; running out
of fuel is the distinguished outcome `Err.fuel`, separate from every outcome
the engine itself produces.  Panics of the source (`expect`, `todo!`, slice
indexing) are modelled as the remaining `Err` constructors.  The source's
lazy, pull-driven iterators of frames are materialized here as order-
preserving lists inside the error monad, and the `HashMap` binding store as
an association list with insert-replaces-value semantics; only name lookup
and insertion are ever performed on it.
-/

namespace Polar

/-- Modelled from the spec (the `terms` module is not part of the shown
source): a variable has an interned name and an optional provisional
class-tag recorded by `isa`. -/
structure Variable where
  name : String
  type_info : Option String
deriving DecidableEq, Repr

/-- Modelled from the spec: the operator enumeration.  `unify`/`eq` and
`and` are the operators the core implements; the remaining constructors
stand for the reserved extension points that must be rejected explicitly. -/
inductive Operator where
  | unify
  | eq
  | and
  | or
  | not
  | lt
  | add
deriving DecidableEq, Repr

mutual
/-- Modelled from the spec: a `Term` is an immutable node carrying a `Value`.
Source equality on terms (`PartialEq`) is structural equality of the carried
values ("structurally identical" in the spec); the freshly-synthesized flag
of the source carries no information observable by the algorithms of
`query.rs`, so it is omitted and `Term::new_temporary(v)` and
`clone_with_value(v)` are both rendered as `Term.mk v`. -/
inductive Term where
  | mk (value : Value)
deriving DecidableEq

/-- Modelled from the spec: the closed tagged union of logical data kinds.
Only `boolean`, `variable`, `call`, `expression` and `instanceLiteral`
participate in the core's algorithms; the rest are structurally present but
not given resolution semantics.  The numeric payload is modelled as an
integer and the external-instance payload as an opaque identifier. -/
inductive Value where
  | number (n : Int)
  | str (s : String)
  | boolean (b : Bool)
  | variable (v : Variable)
  | call (c : Call)
  | expression (op : Operation)
  | instanceLiteral (l : InstanceLiteral)
  | list (items : TermList)
  | dictionary (fields : FieldList)
  | restVariable (v : Variable)
  | externalInstance (id : Nat)
deriving DecidableEq

/-- An ordered sequence of terms (argument lists). -/
inductive TermList where
  | nil
  | cons (head : Term) (tail : TermList)
deriving DecidableEq

/-- An ordered sequence of named term fields (dictionaries, literal fields). -/
inductive FieldList where
  | nil
  | cons (key : String) (val : Term) (tail : FieldList)
deriving DecidableEq

/-- Modelled from the spec: an invocation of a named rule group. -/
inductive Call where
  | mk (name : String) (args : TermList)
deriving DecidableEq

/-- Modelled from the spec: an operator applied to argument terms. -/
inductive Operation where
  | mk (operator : Operator) (args : TermList)
deriving DecidableEq

/-- Modelled from the spec: a class-tag pattern with literal fields. -/
inductive InstanceLiteral where
  | mk (tag : String) (fields : FieldList)
deriving DecidableEq
end

def Term.value : Term → Value
  | .mk v => v

def Call.name : Call → String
  | .mk n _ => n

def Call.args : Call → TermList
  | .mk _ a => a

def Operation.operator : Operation → Operator
  | .mk o _ => o

def Operation.args : Operation → TermList
  | .mk _ a => a

def InstanceLiteral.tag : InstanceLiteral → String
  | .mk t _ => t

/-- A binding map from variable names to terms (`HashMap<String, Term>` in
the source), rendered as an association list with insert-replaces-value
semantics; only lookup and insert are used by the engine. -/
abbrev Bindings := List (String × Term)

def getB : Bindings → String → Option Term
  | [], _ => none
  | (k, v) :: rest, key => if k = key then some v else getB rest key

def insertB : Bindings → String → Term → Bindings
  | [], key, val => [(key, val)]
  | (k, v) :: rest, key, val =>
    if k = key then (k, val) :: rest else (k, v) :: insertB rest key val

/-- One branch's substitution environment (`State` in the source).  The
source `State` also holds a shared read-only knowledge-base handle; since it
is identical in every frame of a query it is passed separately to the
functions that read it. -/
structure State where
  bindings : Bindings
deriving DecidableEq

/-- Modelled from the spec: a rule parameter is a pattern term plus an
optional specializer. -/
structure Param where
  parameter : Term
  specializer : Option Term
deriving DecidableEq

/-- Modelled from the spec: a rule is an ordered parameter list and a body
goal. -/
structure Rule where
  params : List Param
  body : Term
deriving DecidableEq

/-- Modelled from the spec: a rule group stored in the knowledge base. -/
structure GenericRule where
  rules : List Rule
deriving DecidableEq

/-- Modelled from the spec: `get_applicable_rules` returns the ordered
candidate sequence; the filtering/ordering policy is the knowledge base's
opaque responsibility, modelled as returning the stored candidates in
declaration order. -/
def GenericRule.getApplicableRules (g : GenericRule) (_args : TermList) : List Rule :=
  g.rules

/-- Modelled from the spec: the knowledge base maps rule names to rule
groups. -/
structure KnowledgeBase where
  groups : List (String × GenericRule)

def KnowledgeBase.getGenericRule (kb : KnowledgeBase) (name : String) : Option GenericRule :=
  match kb.groups.find? (fun p => p.1 = name) with
  | some p => some p.2
  | none => none

/-- The outcomes that abort evaluation.  `fuel` is the artefact of making
the embedding total; the others model panics of the source: `unknownRule`
for the `expect` on a missing rule group, `mustBeBound` for the `expect` in
result re-projection, `todoValue`/`todoOperator` for the `todo!` arms on
unimplemented value kinds and operators, `index` for out-of-bounds argument
indexing in `Operation::run`. -/
inductive Err where
  | fuel
  | unknownRule (name : String)
  | mustBeBound (name : String)
  | todoValue
  | todoOperator
  | index
deriving DecidableEq, Repr

/-- `State::walk`: dereference a term through the bindings.  A variable
whose stored binding is structurally identical to the queried term is
returned unchanged (the self-binding convention); a different stored term is
walked recursively; anything else is returned unchanged.  `none` means the
fuel bound was hit (the source would recurse without terminating on a cyclic
chain of distinct bound terms). -/
def walkF : Nat → Bindings → Term → Option Term
  | 0, _, _ => none
  | fuel + 1, f, t =>
    match t with
    | .mk (.variable v) =>
      match getB f v.name with
      | some t' => if t' = t then some t' else walkF fuel f t'
      | none => some t
    | _ => some t

def walkE (fuel : Nat) (st : State) (t : Term) : Except Err Term :=
  match walkF fuel st.bindings t with
  | some u => .ok u
  | none => .error .fuel

/-- `State::unify`: walk both sides against the current frame; structurally
equal walked values succeed with no new binding; otherwise a walked variable
side (left preferred) is bound to the other walked side; otherwise fail.
Returns the success flag together with the resulting frame. -/
def State.unify (fuel : Nat) (st : State) (left right : Term) : Except Err (Bool × State) := do
  let wl ← walkE fuel st left
  let wr ← walkE fuel st right
  if wl.value = wr.value then
    pure (true, st)
  else
    match wl.value with
    | .variable v =>
      pure (true, { st with bindings := insertB st.bindings v.name (Term.mk wr.value) })
    | _ =>
      match wr.value with
      | .variable v =>
        pure (true, { st with bindings := insertB st.bindings v.name (Term.mk wl.value) })
      | _ => pure (false, st)

/-- `State::isa`: walk both sides; equal walked values succeed; a walked
variable against an instance-literal pattern succeeds iff its recorded tag
equals the pattern's tag, or, when it carries no tag, optimistically rebinds
the variable to a copy carrying the pattern's tag; everything else fails. -/
def State.isa (fuel : Nat) (st : State) (left right : Term) : Except Err (Bool × State) := do
  let wl ← walkE fuel st left
  let wr ← walkE fuel st right
  if wl.value = wr.value then
    pure (true, st)
  else
    match wl.value, wr.value with
    | .variable var, .instanceLiteral lit =>
      match var.type_info with
      | some tag => pure (decide (tag = lit.tag), st)
      | none =>
        let tagged : Variable := { var with type_info := some lit.tag }
        pure (true, { st with bindings := insertB st.bindings var.name (Term.mk (.variable tagged)) })
    | _, _ => pure (false, st)

/-- The parameter-matching loop of `Call::run`: zip the call's arguments
with the candidate's parameters (stopping at the shorter sequence), walk
each argument against the outer frame, record walked arguments that are
variables for later export, unify the walked argument with the parameter
pattern in the inner frame, and require `isa` against the specializer when
present; the first failure rejects the candidate (`none`). -/
def matchParams (fuel : Nat) (outer : State) :
    TermList → List Param → State → Except Err (Option (State × List String))
  | .nil, _, inner => pure (some (inner, []))
  | .cons _ _, [], inner => pure (some (inner, []))
  | .cons arg args, p :: ps, inner => do
    let warg ← walkE fuel outer arg
    let vars : List String :=
      match warg.value with
      | .variable v => [v.name]
      | _ => []
    let (ok1, inner1) ← State.unify fuel inner warg p.parameter
    if ok1 then do
      let (ok2, inner2) ←
        match p.specializer with
        | some spec => State.isa fuel inner1 warg spec
        | none => pure (true, inner1)
      if ok2 then do
        match ← matchParams fuel outer args ps inner2 with
        | some (innerF, vs) => pure (some (innerF, vars ++ vs))
        | none => pure (none : Option (State × List String))
      else
        pure (none : Option (State × List String))
    else
      pure (none : Option (State × List String))

/-- The result re-projection of `Call::run`: starting from a clone of the
outer frame, install, for every exported variable name, the fully walked
binding the inner frame holds for it; a name with no inner binding is the
`expect("must be bound")` panic. -/
def reproject (fuel : Nat) (inner : State) : List String → State → Except Err State
  | [], newState => pure newState
  | v :: vs, newState =>
    match getB inner.bindings v with
    | none => .error (.mustBeBound v)
    | some t => do
      let w ← walkE fuel inner t
      reproject fuel inner vs { newState with bindings := insertB newState.bindings v w }

def reprojectAll (fuel : Nat) (outer : State) (vars : List String) :
    List State → Except Err (List State)
  | [] => pure []
  | ist :: rest => do
    let ns ← reproject fuel ist vars outer
    let others ← reprojectAll fuel outer vars rest
    pure (ns :: others)

mutual
/-- `impl Goal for Term`: a call or expression dispatches to its own
evaluation, a boolean literal yields the unchanged frame (or nothing), and
every other value kind is the `todo!` arm. -/
def runTerm : Nat → KnowledgeBase → Term → State → Except Err (List State)
  | 0, _, _, _ => .error .fuel
  | fuel + 1, kb, t, st =>
    match t with
    | .mk (.call c) => runCall fuel kb c st
    | .mk (.expression op) => runOp fuel kb op st
    | .mk (.boolean b) => pure (if b then [st] else [])
    | _ => .error .todoValue
termination_by structural fuel => fuel

/-- `Operation::run`: `unify`/`eq` attempt a direct unification of the first
two arguments; `and` folds its arguments left to right over the surviving
frames; any other operator is the `todo!` arm. -/
def runOp : Nat → KnowledgeBase → Operation → State → Except Err (List State)
  | 0, _, _, _ => .error .fuel
  | fuel + 1, kb, .mk operator args, st =>
    match operator with
    | .unify | .eq =>
      match args with
      | .cons l (.cons r _) => do
        let (ok1, st') ← State.unify fuel st l r
        pure (if ok1 then [st'] else [])
      | _ => .error .index
    | .and => runAnd fuel kb args [st]
    | _ => .error .todoOperator
termination_by structural fuel => fuel

/-- The conjunction fold: starting from the current frames, replace them by
the flattened results of running the next conjunct from each of them. -/
def runAnd : Nat → KnowledgeBase → TermList → List State → Except Err (List State)
  | 0, _, _, _ => .error .fuel
  | _ + 1, _, .nil, sts => pure sts
  | fuel + 1, kb, .cons t rest, sts => do
    let sts' ← runSeq fuel kb t sts
    runAnd fuel kb rest sts'
termination_by structural fuel => fuel

/-- Run one goal term from every frame of a list and concatenate the
results in order (`flat_map` in the source). -/
def runSeq : Nat → KnowledgeBase → Term → List State → Except Err (List State)
  | 0, _, _, _ => .error .fuel
  | _ + 1, _, _, [] => pure []
  | fuel + 1, kb, t, s :: ss => do
    let rs ← runTerm fuel kb t s
    let rest ← runSeq fuel kb t ss
    pure (rs ++ rest)
termination_by structural fuel => fuel

/-- `impl Goal for Call`: look up the rule group (a missing group is the
`expect` panic), fetch the applicable candidates, and concatenate every
candidate's contribution in order. -/
def runCall : Nat → KnowledgeBase → Call → State → Except Err (List State)
  | 0, _, _, _ => .error .fuel
  | fuel + 1, kb, c, st =>
    match kb.getGenericRule c.name with
    | none => .error (.unknownRule c.name)
    | some g => runRules fuel kb c st (g.getApplicableRules c.args)
termination_by structural fuel => fuel

/-- The per-candidate loop of `Call::run`: match the parameters into a
fresh empty inner frame; a rejected candidate contributes nothing; an
applicable one runs its body from the inner frame and re-projects each
resulting inner frame onto a clone of the outer frame. -/
def runRules : Nat → KnowledgeBase → Call → State → List Rule → Except Err (List State)
  | 0, _, _, _, _ => .error .fuel
  | _ + 1, _, _, _, [] => pure []
  | fuel + 1, kb, c, st, r :: rest => do
    match ← matchParams fuel st c.args r.params { bindings := [] } with
    | none => runRules fuel kb c st rest
    | some (inner, vars) => do
      let innerResults ← runTerm fuel kb r.body inner
      let projected ← reprojectAll fuel st vars innerResults
      let restResults ← runRules fuel kb c st rest
      pure (projected ++ restResults)
termination_by structural fuel => fuel
end

/-- One entry of a query result record: a bound requested name maps to the
fully walked underlying value, an unbound one to a freshly constructed
unbound-variable value carrying the same name. -/
def projectVar (fuel : Nat) (st : State) (v : String) : Except Err (String × Value) :=
  match getB st.bindings v with
  | some t => do
    let w ← walkE fuel st t
    pure (v, w.value)
  | none => pure (v, Value.variable { name := v, type_info := none })

def projectState (fuel : Nat) (varNames : List String) (st : State) :
    Except Err (List (String × Value)) :=
  varNames.mapM (projectVar fuel st)

/-- The top-level query: requested variable names, a goal term and the
knowledge base. -/
structure Query where
  varNames : List String
  term : Term
  kb : KnowledgeBase

/-- `Query::run`: run the goal from an empty frame and map every resulting
frame to its result record. -/
def Query.run (fuel : Nat) (q : Query) : Except Err (List (List (String × Value))) := do
  let sts ← runTerm fuel q.kb q.term { bindings := [] }
  sts.mapM (projectState fuel q.varNames)

/-! Derived notions used to state the claims, and concrete inputs for the
witnesses. -/

/-- A term on which `walk` is a fixed point: a non-variable, a variable
absent from the bindings, or a variable whose stored binding is structurally
identical to it (the self-binding convention). -/
def Final (f : Bindings) (u : Term) : Prop :=
  match u with
  | .mk (.variable v) => getB f v.name = none ∨ getB f v.name = some u
  | _ => True

/-- The goal terms the core does not implement: every value kind other than
`call`, `expression` and `boolean`, and every expression whose operator is
not `unify`, `eq` or `and`. -/
def unsupportedTerm : Term → Bool
  | .mk (.call _) => false
  | .mk (.boolean _) => false
  | .mk (.expression (.mk operator _)) =>
    match operator with
    | .unify | .eq | .and => false
    | _ => true
  | _ => true

def TermList.length : TermList → Nat
  | .nil => 0
  | .cons _ rest => TermList.length rest + 1

def TermList.append : TermList → TermList → TermList
  | .nil, ys => ys
  | .cons x xs, ys => .cons x (TermList.append xs ys)

def xName : String := "x"

def fName : String := "f"

def varX : Term := Term.mk (.variable { name := xName, type_info := none })

def numT (k : Int) : Term := Term.mk (.number k)

def trueT : Term := Term.mk (.boolean true)

def unifyT (a b : Term) : Term := Term.mk (.expression (.mk .unify (.cons a (.cons b .nil))))

def andT (a b : Term) : Term := Term.mk (.expression (.mk .and (.cons a (.cons b .nil))))

/-- The goal of end-to-end scenario 4, `Operation(And, [Unify(x,1), Unify(x,2)])`,
for an arbitrary variable. -/
def conflictGoal (v : Variable) : Term :=
  andT (unifyT (Term.mk (.variable v)) (numT 1)) (unifyT (Term.mk (.variable v)) (numT 2))

/-- The rule `f(x) := true` whose parameter pattern is the bare variable `x`. -/
def echoRule : Rule :=
  { params := [{ parameter := varX, specializer := none }], body := trueT }

def kbEcho : KnowledgeBase := ⟨[(fName, ⟨[echoRule]⟩)]⟩

def callFX : Term := Term.mk (.call (.mk fName (.cons varX .nil)))

/-- The query `f(x)` requesting `x`, against the knowledge base holding only
`f(x) := true`: the public-interface input exhibiting the "must be bound"
abort. -/
def queryC4 : Query := { varNames := [xName], term := callFX, kb := kbEcho }

def emptyKB : KnowledgeBase := ⟨[]⟩

/-! Basic lemmas about terms, binding maps and `walk`. -/

theorem Term.mk_value : ∀ t : Term, Term.mk t.value = t
  | .mk _ => rfl

theorem Term.value_inj : ∀ {a b : Term}, a.value = b.value → a = b
  | .mk _, .mk _, h => by simpa [Term.value] using h

theorem getB_insertB_self (f : Bindings) (k : String) (t : Term) :
    getB (insertB f k t) k = some t := by
  induction f with
  | nil => simp [insertB, getB]
  | cons p rest ih =>
    obtain ⟨k', v⟩ := p
    by_cases h : k' = k <;> simp [insertB, getB, h, ih]

theorem getB_insertB_ne (f : Bindings) {k k' : String} (t : Term) (h : k' ≠ k) :
    getB (insertB f k t) k' = getB f k' := by
  have hk : ¬k = k' := fun e => h (Eq.symm e)
  induction f with
  | nil => simp [insertB, getB, hk]
  | cons p rest ih =>
    obtain ⟨k0, v⟩ := p
    by_cases h0 : k0 = k
    · subst h0
      simp [insertB, getB, hk]
    · simp only [insertB, getB, h0, if_false]
      by_cases h1 : k0 = k' <;> simp [getB, h1, ih]

theorem walkF_nonvar {n : Nat} {f : Bindings} {t : Term}
    (h : ∀ v, t ≠ Term.mk (.variable v)) : walkF (n + 1) f t = some t := by
  cases t with
  | mk tv => cases tv <;> first
    | rfl
    | exact absurd rfl (h _)

theorem walkF_mono {f : Bindings} {t u : Term} :
    ∀ {n m : Nat}, walkF n f t = some u → n ≤ m → walkF m f t = some u := by
  intro n
  induction n generalizing t with
  | zero => intro m h; simp [walkF] at h
  | succ n ih =>
    intro m h hnm
    obtain ⟨m', rfl⟩ : ∃ m', m = m' + 1 := ⟨m - 1, by omega⟩
    cases t with
    | mk tv =>
      cases tv with
      | «variable» v =>
        simp only [walkF] at h ⊢
        cases hg : getB f v.name with
        | none => simpa [hg] using h
        | some t' =>
          rw [hg] at h
          by_cases he : t' = Term.mk (.variable v)
          · simpa [he] using h
          · simp only [he, if_false] at h ⊢
            exact ih h (by omega)
      | _ => simpa [walkF] using h

/-- Any result of `walk` is a fixed point shape: a non-variable, an unbound
variable, or a self-bound variable. -/
theorem walkF_final {f : Bindings} {t u : Term} :
    ∀ {n : Nat}, walkF n f t = some u → Final f u := by
  intro n
  induction n generalizing t with
  | zero => intro h; simp [walkF] at h
  | succ n ih =>
    intro h
    cases t with
    | mk tv =>
      cases tv with
      | «variable» v =>
        simp only [walkF] at h
        cases hg : getB f v.name with
        | none =>
          rw [hg] at h
          cases h
          exact Or.inl hg
        | some t' =>
          rw [hg] at h
          by_cases he : t' = Term.mk (.variable v)
          · simp only [he, if_pos rfl] at h
            cases h
            exact Or.inr (by rw [hg, he])
          · simp only [he, if_false] at h
            exact ih h
      | number k => simp only [walkF] at h; cases h; trivial
      | str s => simp only [walkF] at h; cases h; trivial
      | boolean b => simp only [walkF] at h; cases h; trivial
      | call c => simp only [walkF] at h; cases h; trivial
      | expression op => simp only [walkF] at h; cases h; trivial
      | instanceLiteral l => simp only [walkF] at h; cases h; trivial
      | list xs => simp only [walkF] at h; cases h; trivial
      | dictionary xs => simp only [walkF] at h; cases h; trivial
      | restVariable v => simp only [walkF] at h; cases h; trivial
      | externalInstance i => simp only [walkF] at h; cases h; trivial

/-- A `Final` term is a fixed point of `walk` at any positive fuel. -/
theorem walkF_fix {f : Bindings} {u : Term} (n : Nat) (h : Final f u) :
    walkF (n + 1) f u = some u := by
  cases u with
  | mk uv =>
    cases uv with
    | «variable» v =>
      rcases h with h | h <;> simp [walkF, h]
    | _ => simp [walkF]

/-- A `Final` term stays `Final` after it itself is inserted at any key. -/
theorem final_insert_self {f : Bindings} {u : Term} (x : String) (h : Final f u) :
    Final (insertB f x u) u := by
  cases u with
  | mk uv =>
    cases uv with
    | «variable» v =>
      simp only [Final] at h ⊢
      by_cases hx : v.name = x
      · right
        rw [hx, getB_insertB_self]
      · rcases h with h | h
        · left
          rw [getB_insertB_ne f _ hx, h]
        · right
          rw [getB_insertB_ne f _ hx, h]
    | _ => trivial

/-- One step of `walk` on an unbound variable. -/
theorem walkF_var_none {n : Nat} {f : Bindings} {v : Variable}
    (h : getB f v.name = none) :
    walkF (n + 1) f (Term.mk (.variable v)) = some (Term.mk (.variable v)) := by
  simp [walkF, h]

/-- One step of `walk` on a self-bound variable returns the stored term. -/
theorem walkF_var_self {n : Nat} {f : Bindings} {v : Variable} {t' : Term}
    (h : getB f v.name = some t') (he : t' = Term.mk (.variable v)) :
    walkF (n + 1) f (Term.mk (.variable v)) = some t' := by
  simp [walkF, h, he]

/-- One step of `walk` on a variable bound to a different term recurses. -/
theorem walkF_var_step {n : Nat} {f : Bindings} {v : Variable} {t' : Term}
    (h : getB f v.name = some t') (he : t' ≠ Term.mk (.variable v)) :
    walkF (n + 1) f (Term.mk (.variable v)) = walkF n f t' := by
  simp [walkF, h, he]

/-- Inserting the result of a walk of `b` at any key leaves walking `b`
unchanged (one extra unit of fuel absorbs the possible new self-binding). -/
theorem walkF_insert_result {f : Bindings} {x : String} :
    ∀ {n : Nat} {b u : Term}, walkF n f b = some u →
      walkF (n + 1) (insertB f x u) b = some u := by
  intro n
  induction n with
  | zero => intro b u h; simp [walkF] at h
  | succ n ih =>
    intro b u h
    have hfin' : Final (insertB f x u) u := final_insert_self x (walkF_final h)
    cases b with
    | mk bv =>
      cases bv with
      | «variable» z =>
        by_cases hx : z.name = x
        · have hget : getB (insertB f x u) z.name = some u := by
            rw [hx]
            exact getB_insertB_self f x u
          by_cases hub : u = Term.mk (.variable z)
          · rw [walkF_var_self hget hub]
          · rw [walkF_var_step hget hub]
            exact walkF_fix n hfin'
        · cases hg : getB f z.name with
          | none =>
            rw [walkF_var_none hg] at h
            cases h
            exact walkF_var_none (by rw [getB_insertB_ne f _ hx]; exact hg)
          | some t' =>
            have hget : getB (insertB f x u) z.name = some t' := by
              rw [getB_insertB_ne f _ hx]
              exact hg
            by_cases he : t' = Term.mk (.variable z)
            · rw [walkF_var_self hg he] at h
              cases h
              exact walkF_var_self hget he
            · rw [walkF_var_step hg he] at h
              rw [walkF_var_step hget he]
              exact ih h
      | number k => simp only [walkF] at h; cases h; simp [walkF]
      | str s => simp only [walkF] at h; cases h; simp [walkF]
      | boolean bb => simp only [walkF] at h; cases h; simp [walkF]
      | call c => simp only [walkF] at h; cases h; simp [walkF]
      | expression op => simp only [walkF] at h; cases h; simp [walkF]
      | instanceLiteral l => simp only [walkF] at h; cases h; simp [walkF]
      | list xs => simp only [walkF] at h; cases h; simp [walkF]
      | dictionary xs => simp only [walkF] at h; cases h; simp [walkF]
      | restVariable vv => simp only [walkF] at h; cases h; simp [walkF]
      | externalInstance i => simp only [walkF] at h; cases h; simp [walkF]

/-- After binding the variable `a` walks to, to a different final term `tv`,
walking `a` reaches `tv`. -/
theorem walkF_insert_var {f : Bindings} {v : Variable} {tv : Term} :
    ∀ {n : Nat} {a w : Term}, walkF n f a = some w → w = Term.mk (.variable v) →
      tv ≠ w → Final f tv → walkF (n + 1) (insertB f v.name tv) a = some tv := by
  intro n
  induction n with
  | zero => intro a w h _ _ _; simp [walkF] at h
  | succ n ih =>
    intro a w h hw htv hfin
    have hfin' : Final (insertB f v.name tv) tv := final_insert_self v.name hfin
    have hfw : Final f w := walkF_final h
    subst hw
    cases a with
    | mk av =>
      cases av with
      | «variable» z =>
        cases hg : getB f z.name with
        | none =>
          rw [walkF_var_none hg] at h
          have hzv : z = v := by
            have h2 := Option.some.inj h
            simpa [Term.mk.injEq, Value.variable.injEq] using h2
          subst hzv
          rw [walkF_var_step (getB_insertB_self f z.name tv) htv]
          exact walkF_fix n hfin'
        | some t' =>
          by_cases he : t' = Term.mk (.variable z)
          · rw [walkF_var_self hg he] at h
            have ht : t' = Term.mk (.variable v) := Option.some.inj h
            have hzv : z = v := by
              rw [he] at ht
              simpa [Term.mk.injEq, Value.variable.injEq] using ht
            subst hzv
            rw [walkF_var_step (getB_insertB_self f z.name tv) htv]
            exact walkF_fix n hfin'
          · rw [walkF_var_step hg he] at h
            by_cases hz : z.name = v.name
            · have ht'w : t' = Term.mk (.variable v) := by
                rw [hz] at hg
                rcases hfw with hfw | hfw
                · rw [hfw] at hg
                  cases hg
                · rw [hfw] at hg
                  exact (Option.some.inj hg).symm
              have htva : tv ≠ Term.mk (.variable z) := by
                intro hcon
                rw [hcon] at hfin
                simp only [Final] at hfin
                rcases hfin with hf2 | hf2
                · rw [hf2] at hg
                  cases hg
                · rw [hf2] at hg
                  exact he (Option.some.inj hg).symm
              have hget : getB (insertB f v.name tv) z.name = some tv := by
                rw [hz]
                exact getB_insertB_self f v.name tv
              rw [walkF_var_step hget htva]
              exact walkF_fix n hfin'
            · have hget : getB (insertB f v.name tv) z.name = some t' := by
                rw [getB_insertB_ne f _ hz]
                exact hg
              rw [walkF_var_step hget he]
              exact ih h rfl htv hfin
      | number k => simp [walkF] at h
      | str s => simp [walkF] at h
      | boolean bb => simp [walkF] at h
      | call c => simp [walkF] at h
      | expression op => simp [walkF] at h
      | instanceLiteral l => simp [walkF] at h
      | list xs => simp [walkF] at h
      | dictionary xs => simp [walkF] at h
      | restVariable vv => simp [walkF] at h
      | externalInstance i => simp [walkF] at h

/-- C2: walk is idempotent on every input on which it terminates, and a
walked result is a non-variable, a variable absent from the bindings, or a
variable whose stored binding is structurally identical to itself. -/
theorem claim_C2_walk_idempotent {n : Nat} {f : Bindings} {t u : Term}
    (h : walkF n f t = some u) : walkF n f u = some u ∧ Final f u := by
  have hf : Final f u := walkF_final h
  obtain ⟨n', rfl⟩ : ∃ n', n = n' + 1 := by
    cases n with
    | zero => simp [walkF] at h
    | succ k => exact ⟨k, rfl⟩
  exact ⟨walkF_fix n' hf, hf⟩

theorem claim_C2_witness :
    walkF 2 [(xName, numT 1)] (numT 1) = some (numT 1) ∧ Final [(xName, numT 1)] (numT 1) :=
  @claim_C2_walk_idempotent 2 [(xName, numT 1)] varX (numT 1) (by rfl)

/-! Reduction lemmas for the `Except` monad operations used by the engine. -/

theorem exc_bind_ok {ε α β : Type} (x : α) (f : α → Except ε β) :
    (Except.ok x >>= f) = f x := rfl

theorem exc_bind_error {ε α β : Type} (e : ε) (f : α → Except ε β) :
    ((Except.error e : Except ε α) >>= f) = Except.error e := rfl

theorem exc_pure {ε α : Type} (x : α) : (pure x : Except ε α) = Except.ok x := rfl

theorem exc_map_ok {ε α β : Type} (g : α → β) (x : α) :
    Except.map g (Except.ok x : Except ε α) = Except.ok (g x) := rfl

theorem exc_map_error {ε α β : Type} (g : α → β) (e : ε) :
    Except.map g (Except.error e : Except ε α) = Except.error e := rfl

/-- C1: `unify(a, b, f)` and `unify(b, a, f)` succeed or fail identically
(including the fuel artefact), and whenever `unify(a, b, f)` succeeds with
frame `f'`, walking `a` and walking `b` under `f'` yields the same term. -/
theorem claim_C1_unify_symmetric (fuel : Nat) (st : State) (a b : Term) :
    Except.map Prod.fst (State.unify fuel st a b)
      = Except.map Prod.fst (State.unify fuel st b a)
    ∧ ∀ st', State.unify fuel st a b = .ok (true, st') →
        ∃ w m, walkF m st'.bindings a = some w ∧ walkF m st'.bindings b = some w := by
  constructor
  · cases hwa : walkF fuel st.bindings a with
    | none =>
      cases hwb : walkF fuel st.bindings b with
      | none => simp [State.unify, walkE, hwa, hwb, exc_bind_ok, exc_bind_error]
      | some wb => simp [State.unify, walkE, hwa, hwb, exc_bind_ok, exc_bind_error]
    | some wa =>
      cases hwb : walkF fuel st.bindings b with
      | none => simp [State.unify, walkE, hwa, hwb, exc_bind_ok, exc_bind_error]
      | some wb =>
        by_cases hv : wa.value = wb.value
        · simp only [State.unify, walkE, hwa, hwb, exc_bind_ok]
          rw [if_pos hv, if_pos (Eq.symm hv)]
        · have hv' : ¬ wb.value = wa.value := fun e => hv (Eq.symm e)
          simp only [State.unify, walkE, hwa, hwb, exc_bind_ok, exc_bind_error]
          rw [if_neg hv, if_neg hv']
          obtain ⟨wav⟩ := wa
          obtain ⟨wbv⟩ := wb
          cases wav <;> cases wbv <;> simp [Term.value, exc_pure, exc_map_ok]
  · intro st' h
    cases hwa : walkF fuel st.bindings a with
    | none => simp [State.unify, walkE, hwa, exc_bind_ok, exc_bind_error] at h
    | some wa =>
      cases hwb : walkF fuel st.bindings b with
      | none => simp [State.unify, walkE, hwa, hwb, exc_bind_ok, exc_bind_error] at h
      | some wb =>
        by_cases hv : wa.value = wb.value
        · have hab : wa = wb := Term.value_inj hv
          simp only [State.unify, walkE, hwa, hwb, exc_bind_ok, exc_bind_error,
            if_pos hv, exc_pure, Except.ok.injEq, Prod.mk.injEq] at h
          have hst : st = st' := by
            first
            | exact h
            | exact h.2
          subst hst
          exact ⟨wa, fuel, hwa, by rw [hab]; exact hwb⟩
        · simp only [State.unify, walkE, hwa, hwb, exc_bind_ok, exc_bind_error] at h
          rw [if_neg hv] at h
          split at h
          · rename_i v heq
            have hwa' : wa = Term.mk (.variable v) := by
              rw [← Term.mk_value wa, heq]
            simp only [exc_pure, Except.ok.injEq, Prod.mk.injEq] at h
            have hst : st' = { st with
                bindings := insertB st.bindings v.name (Term.mk wb.value) } := by
              first
              | exact h.symm
              | exact (h.2).symm
            rw [Term.mk_value] at hst
            have hne : wb ≠ wa := fun e => hv (by rw [e])
            have h1 : walkF (fuel + 1) (insertB st.bindings v.name wb) a = some wb :=
              walkF_insert_var hwa hwa' hne (walkF_final hwb)
            have h2 : walkF (fuel + 1) (insertB st.bindings v.name wb) b = some wb :=
              walkF_insert_result hwb
            exact ⟨wb, fuel + 1, by rw [hst]; exact h1, by rw [hst]; exact h2⟩
          · split at h
            · rename_i v heq
              have hwb' : wb = Term.mk (.variable v) := by
                rw [← Term.mk_value wb, heq]
              simp only [exc_pure, Except.ok.injEq, Prod.mk.injEq] at h
              have hst : st' = { st with
                  bindings := insertB st.bindings v.name (Term.mk wa.value) } := by
                first
                | exact h.symm
                | exact (h.2).symm
              rw [Term.mk_value] at hst
              have hne : wa ≠ wb := fun e => hv (by rw [e])
              have h1 : walkF (fuel + 1) (insertB st.bindings v.name wa) b = some wa :=
                walkF_insert_var hwb hwb' hne (walkF_final hwa)
              have h2 : walkF (fuel + 1) (insertB st.bindings v.name wa) a = some wa :=
                walkF_insert_result hwa
              exact ⟨wa, fuel + 1, by rw [hst]; exact h2, by rw [hst]; exact h1⟩
            · simp [exc_pure] at h

theorem claim_C1_witness :
    Except.map Prod.fst (State.unify 3 ⟨[]⟩ varX (numT 1))
      = Except.map Prod.fst (State.unify 3 ⟨[]⟩ (numT 1) varX)
    ∧ ∃ w m, walkF m [(xName, numT 1)] varX = some w
        ∧ walkF m [(xName, numT 1)] (numT 1) = some w :=
  ⟨(claim_C1_unify_symmetric 3 ⟨[]⟩ varX (numT 1)).1,
   (claim_C1_unify_symmetric 3 ⟨[]⟩ varX (numT 1)).2 ⟨[(xName, numT 1)]⟩ (by rfl)⟩


/-- C9: when `unify` fails it leaves the frame's bindings exactly as they
were, and a single successful `unify` performs at most one binding
insertion (none in the structural-equality case). -/
theorem claim_C9_unify_failure_pure (fuel : Nat) (st : State) (l r : Term) :
    (∀ st', State.unify fuel st l r = .ok (false, st') → st' = st)
    ∧ ∀ st', State.unify fuel st l r = .ok (true, st') →
        st' = st ∨ ∃ x t, st' = { st with bindings := insertB st.bindings x t } := by
  constructor
  · intro st' h
    cases hwl : walkF fuel st.bindings l with
    | none => simp [State.unify, walkE, hwl, exc_bind_error] at h
    | some wl =>
      cases hwr : walkF fuel st.bindings r with
      | none => simp [State.unify, walkE, hwl, hwr, exc_bind_ok, exc_bind_error] at h
      | some wr =>
        simp only [State.unify, walkE, hwl, hwr, exc_bind_ok] at h
        by_cases hv : wl.value = wr.value
        · rw [if_pos hv] at h
          simp [exc_pure] at h
        · rw [if_neg hv] at h
          split at h
          · simp [exc_pure] at h
          · split at h
            · simp [exc_pure] at h
            · simp only [exc_pure, Except.ok.injEq, Prod.mk.injEq] at h
              first
              | exact h.symm
              | exact (h.2).symm
  · intro st' h
    cases hwl : walkF fuel st.bindings l with
    | none => simp [State.unify, walkE, hwl, exc_bind_error] at h
    | some wl =>
      cases hwr : walkF fuel st.bindings r with
      | none => simp [State.unify, walkE, hwl, hwr, exc_bind_ok, exc_bind_error] at h
      | some wr =>
        simp only [State.unify, walkE, hwl, hwr, exc_bind_ok] at h
        by_cases hv : wl.value = wr.value
        · rw [if_pos hv] at h
          left
          simp only [exc_pure, Except.ok.injEq, Prod.mk.injEq] at h
          first
          | exact h.symm
          | exact (h.2).symm
        · rw [if_neg hv] at h
          split at h
          · rename_i v heq
            right
            refine ⟨v.name, Term.mk wr.value, ?_⟩
            simp only [exc_pure, Except.ok.injEq, Prod.mk.injEq] at h
            first
            | exact h.symm
            | exact (h.2).symm
          · split at h
            · rename_i v heq
              right
              refine ⟨v.name, Term.mk wl.value, ?_⟩
              simp only [exc_pure, Except.ok.injEq, Prod.mk.injEq] at h
              first
              | exact h.symm
              | exact (h.2).symm
            · simp [exc_pure] at h

theorem claim_C9_witness :
    State.unify 2 ⟨[]⟩ (numT 1) (numT 2) = .ok (false, ⟨[]⟩) ∧ (⟨[]⟩ : State) = ⟨[]⟩ :=
  ⟨by rfl, (claim_C9_unify_failure_pure 2 ⟨[]⟩ (numT 1) (numT 2)).1 ⟨[]⟩ (by rfl)⟩

/-- C8: `isa` with walked left a variable and walked right an instance
literal succeeds iff the variable's recorded tag equals the literal's tag
(frame unchanged), or the variable carries no tag, in which case it rebinds
the variable's name to a copy carrying the literal's tag and succeeds; equal
walked sides succeed, and every other combination fails. -/
theorem claim_C8_isa_spec (fuel : Nat) (st : State) (l r wl wr : Term)
    (hl : walkE fuel st l = .ok wl) (hr : walkE fuel st r = .ok wr) :
    (wl.value = wr.value → State.isa fuel st l r = .ok (true, st))
    ∧ (∀ var lit, wl.value = .variable var → wr.value = .instanceLiteral lit →
        (∀ tag, var.type_info = some tag →
          State.isa fuel st l r = .ok (decide (tag = lit.tag), st))
        ∧ (var.type_info = none →
          State.isa fuel st l r = .ok (true, { st with
            bindings := insertB st.bindings var.name
              (Term.mk (.variable { var with type_info := some lit.tag })) })))
    ∧ ((¬wl.value = wr.value ∧
          ∀ var lit, ¬(wl.value = .variable var ∧ wr.value = .instanceLiteral lit)) →
        State.isa fuel st l r = .ok (false, st)) := by
  refine ⟨?_, ?_, ?_⟩
  · intro hv
    simp [State.isa, hl, hr, exc_bind_ok, if_pos hv, exc_pure]
  · intro var lit hvar hlit
    have hv : ¬wl.value = wr.value := by
      rw [hvar, hlit]
      simp
    constructor
    · intro tag htag
      simp only [State.isa, hl, hr, exc_bind_ok]
      rw [if_neg hv, hvar, hlit]
      simp [htag, exc_pure]
    · intro htag
      simp only [State.isa, hl, hr, exc_bind_ok]
      rw [if_neg hv, hvar, hlit]
      simp [htag, exc_pure]
  · intro hfail
    obtain ⟨hv, hnot⟩ := hfail
    simp only [State.isa, hl, hr, exc_bind_ok]
    rw [if_neg hv]
    split
    · rename_i var lit heq1 heq2
      exact absurd ⟨heq1, heq2⟩ (hnot var lit)
    · rfl

theorem claim_C8_witness :
    State.isa 1 ⟨[]⟩ varX (Term.mk (.instanceLiteral (.mk fName .nil)))
      = .ok (true, ⟨[(xName,
          Term.mk (.variable { name := xName, type_info := some fName }))]⟩) := by
  have h := ((claim_C8_isa_spec 1 ⟨[]⟩ varX (Term.mk (.instanceLiteral (.mk fName .nil)))
      varX (Term.mk (.instanceLiteral (.mk fName .nil))) (by rfl) (by rfl)).2.1
      { name := xName, type_info := none } (.mk fName .nil) (by rfl) (by rfl)).2 (by rfl)
  simpa [varX, xName, insertB, InstanceLiteral.tag] using h

/-- C7: for every requested variable name of a query result frame, a name
present in the bindings is mapped to its fully walked underlying value and
an absent name to a freshly constructed unbound-variable value carrying the
same name; `Query.run` is exactly this projection mapped over the goal's
result frames. -/
theorem claim_C7_query_projection (fuel : Nat) (st : State) (v : String) (q : Query) :
    (∀ t, getB st.bindings v = some t →
        projectVar fuel st v = Except.map (fun w => (v, w.value)) (walkE fuel st t))
    ∧ (getB st.bindings v = none →
        projectVar fuel st v = .ok (v, Value.variable { name := v, type_info := none }))
    ∧ Query.run fuel q = (runTerm fuel q.kb q.term { bindings := [] } >>= fun sts =>
        sts.mapM (fun st1 => q.varNames.mapM (projectVar fuel st1))) := by
  refine ⟨?_, ?_, ?_⟩
  · intro t ht
    simp only [projectVar, ht]
    cases hw : walkE fuel st t <;>
      simp [hw, exc_bind_ok, exc_bind_error, exc_map_ok, exc_map_error, exc_pure]
  · intro ht
    simp [projectVar, ht, exc_pure]
  · rfl

theorem claim_C7_witness :
    projectVar 2 ⟨[(xName, numT 1)]⟩ xName
        = Except.map (fun w => (xName, w.value)) (walkE 2 ⟨[(xName, numT 1)]⟩ (numT 1))
    ∧ projectVar 2 ⟨[]⟩ xName
        = .ok (xName, Value.variable { name := xName, type_info := none }) :=
  ⟨(claim_C7_query_projection 2 ⟨[(xName, numT 1)]⟩ xName ⟨[], trueT, emptyKB⟩).1
      (numT 1) (by rfl),
   (claim_C7_query_projection 2 ⟨[]⟩ xName ⟨[], trueT, emptyKB⟩).2.1 (by rfl)⟩

/-- C5: every goal term whose value kind, or whose operation's operator, is
not implemented by the core evaluates to an explicit unsupported-goal
outcome (`todoValue`/`todoOperator`, the `todo!` panics of the source),
never to an empty or one-element result sequence. -/
theorem claim_C5_unsupported_goal (n : Nat) (kb : KnowledgeBase) (st : State) (t : Term)
    (h : unsupportedTerm t = true) :
    runTerm (n + 2) kb t st = .error .todoValue
    ∨ runTerm (n + 2) kb t st = .error .todoOperator := by
  have e2 : n + 2 = (n + 1) + 1 := rfl
  rw [e2]
  obtain ⟨tv⟩ := t
  cases tv with
  | call c => simp [unsupportedTerm] at h
  | boolean b => simp [unsupportedTerm] at h
  | expression op =>
    obtain ⟨oper, args⟩ := op
    cases oper with
    | unify => simp [unsupportedTerm] at h
    | eq => simp [unsupportedTerm] at h
    | and => simp [unsupportedTerm] at h
    | or => right; simp [runTerm, runOp]
    | not => right; simp [runTerm, runOp]
    | lt => right; simp [runTerm, runOp]
    | add => right; simp [runTerm, runOp]
  | number k => left; simp [runTerm]
  | str s => left; simp [runTerm]
  | «variable» v => left; simp [runTerm]
  | instanceLiteral l => left; simp [runTerm]
  | list xs => left; simp [runTerm]
  | dictionary xs => left; simp [runTerm]
  | restVariable v => left; simp [runTerm]
  | externalInstance i => left; simp [runTerm]

theorem claim_C5_witness :
    unsupportedTerm (numT 7) = true
    ∧ (runTerm 2 emptyKB (numT 7) ⟨[]⟩ = .error .todoValue
      ∨ runTerm 2 emptyKB (numT 7) ⟨[]⟩ = .error .todoOperator) :=
  ⟨by rfl, claim_C5_unsupported_goal 0 emptyKB ⟨[]⟩ (numT 7) (by rfl)⟩

/-- C6: a `Call` naming a rule group absent from the knowledge base aborts
the whole query with the fatal unknown-rule outcome (the source's `expect`
panic) instead of yielding an empty result sequence. -/
theorem claim_C6_unknown_rule (n : Nat) (q : Query) (c : Call)
    (hterm : q.term = Term.mk (.call c))
    (h : q.kb.getGenericRule c.name = none) :
    Query.run (n + 2) q = .error (.unknownRule c.name) := by
  have e2 : n + 2 = (n + 1) + 1 := rfl
  simp only [Query.run, hterm]
  rw [e2]
  simp [runTerm, runCall, h, exc_bind_error]

theorem claim_C6_witness :
    Query.run 2 ⟨[], Term.mk (.call (.mk fName .nil)), emptyKB⟩
      = .error (.unknownRule fName) :=
  claim_C6_unknown_rule 0 ⟨[], Term.mk (.call (.mk fName .nil)), emptyKB⟩
    (.mk fName .nil) (by rfl) (by rfl)

/-- C4: the concrete public-interface query `f(x)` (with `x` unbound)
against the knowledge base holding only `f(x) := true`: the parameter match
succeeds through the equality case of `unify` without inserting any binding
into the fresh inner frame, while recording `x` for export, the body
succeeds, and the re-projection then aborts at the "must be bound" lookup. -/
theorem claim_C4_must_be_bound_abort :
    matchParams 20 ⟨[]⟩ (TermList.cons varX .nil) echoRule.params ⟨[]⟩
      = .ok (some (⟨[]⟩, [xName]))
    ∧ runTerm 20 kbEcho echoRule.body ⟨[]⟩ = .ok [⟨[]⟩]
    ∧ Query.run 20 queryC4 = .error (.mustBeBound xName) :=
  ⟨by rfl, by rfl, by rfl⟩

theorem matchParams_params_truncate (fuel : Nat) (outer : State) (extraP : List Param) :
    ∀ (args : TermList) (ps : List Param) (inner : State),
      TermList.length args ≤ ps.length →
      matchParams fuel outer args (ps ++ extraP) inner
        = matchParams fuel outer args ps inner
  | .nil, _, _, _ => by simp [matchParams]
  | .cons _ _, [], _, h => by simp [TermList.length] at h
  | .cons a as, p :: ps', inner, h => by
    have ih : ∀ inner', matchParams fuel outer as (ps' ++ extraP) inner'
        = matchParams fuel outer as ps' inner' := fun inner' =>
      matchParams_params_truncate fuel outer extraP as ps' inner'
        (by simpa [TermList.length] using h)
    simp only [List.cons_append, List.append_eq, matchParams, ih]

theorem matchParams_args_truncate (fuel : Nat) (outer : State) (extraA : TermList) :
    ∀ (args : TermList) (ps : List Param) (inner : State),
      ps.length ≤ TermList.length args →
      matchParams fuel outer (TermList.append args extraA) ps inner
        = matchParams fuel outer args ps inner
  | .nil, ps, inner, h => by
    have hps : ps = [] := by
      cases ps with
      | nil => rfl
      | cons p ps' => simp [TermList.length] at h
    subst hps
    cases extraA <;> simp [TermList.append, matchParams]
  | .cons _ _, [], _, _ => by simp [TermList.append, matchParams]
  | .cons a as, p :: ps', inner, h => by
    have ih : ∀ inner', matchParams fuel outer (TermList.append as extraA) ps' inner'
        = matchParams fuel outer as ps' inner' := fun inner' =>
      matchParams_args_truncate fuel outer extraA as ps' inner'
        (by simpa [TermList.length] using h)
    simp only [TermList.append, matchParams, ih]

/-- C10: parameter matching pairs call arguments with rule parameters
positionally and stops at the shorter sequence: surplus parameters, or
surplus arguments, are never unified or specializer-checked and cannot
reject the candidate. -/
theorem claim_C10_zip_shorter (fuel : Nat) (outer inner : State) (args extraA : TermList)
    (ps extraP : List Param) :
    (TermList.length args ≤ ps.length →
      matchParams fuel outer args (ps ++ extraP) inner
        = matchParams fuel outer args ps inner)
    ∧ (ps.length ≤ TermList.length args →
      matchParams fuel outer (TermList.append args extraA) ps inner
        = matchParams fuel outer args ps inner) :=
  ⟨fun h => matchParams_params_truncate fuel outer extraP args ps inner h,
   fun h => matchParams_args_truncate fuel outer extraA args ps inner h⟩

theorem claim_C10_witness :
    matchParams 2 ⟨[]⟩ (TermList.cons (numT 1) .nil)
        ([{ parameter := numT 1, specializer := none },
          { parameter := numT 2, specializer := none }]) ⟨[]⟩
      = matchParams 2 ⟨[]⟩ (TermList.cons (numT 1) .nil)
          ([{ parameter := numT 1, specializer := none }]) ⟨[]⟩
    ∧ matchParams 2 ⟨[]⟩ (TermList.append (TermList.cons (numT 1) .nil)
          (TermList.cons (numT 2) .nil))
        ([{ parameter := numT 1, specializer := none }]) ⟨[]⟩
      = matchParams 2 ⟨[]⟩ (TermList.cons (numT 1) .nil)
          ([{ parameter := numT 1, specializer := none }]) ⟨[]⟩ :=
  ⟨(claim_C10_zip_shorter 2 ⟨[]⟩ ⟨[]⟩ (TermList.cons (numT 1) .nil) .nil
      [{ parameter := numT 1, specializer := none }]
      [{ parameter := numT 2, specializer := none }]).1 (by decide),
   (claim_C10_zip_shorter 2 ⟨[]⟩ ⟨[]⟩ (TermList.cons (numT 1) .nil)
      (TermList.cons (numT 2) .nil)
      [{ parameter := numT 1, specializer := none }] []).2 (by decide)⟩

theorem unify_unbound_num (m : Nat) (st : State) (v : Variable) (k : Int)
    (h : getB st.bindings v.name = none) :
    State.unify (m + 1) st (Term.mk (.variable v)) (numT k)
      = .ok (true, ⟨insertB st.bindings v.name (numT k)⟩) := by
  have hw2 : walkF (m + 1) st.bindings (numT k) = some (numT k) :=
    walkF_nonvar (by intro u; simp [numT])
  simp only [State.unify, walkE, walkF_var_none h, hw2, exc_bind_ok]
  rw [if_neg (by simp [numT, Term.value])]
  simp [numT, Term.value, exc_pure]

theorem unify_bound_num_ne (m : Nat) (st : State) (v : Variable) (k j : Int)
    (hkj : ¬k = j) (hb : getB st.bindings v.name = some (numT k)) :
    State.unify (m + 1 + 1) st (Term.mk (.variable v)) (numT j) = .ok (false, st) := by
  have hne : numT k ≠ Term.mk (.variable v) := by simp [numT]
  have hw1 : walkF (m + 1 + 1) st.bindings (Term.mk (.variable v)) = some (numT k) := by
    rw [walkF_var_step hb hne]
    exact walkF_nonvar (by intro u; simp [numT])
  have hw2 : walkF (m + 1 + 1) st.bindings (numT j) = some (numT j) :=
    walkF_nonvar (by intro u; simp [numT])
  simp only [State.unify, walkE, hw1, hw2, exc_bind_ok]
  rw [if_neg (by simp [numT, Term.value, hkj])]
  simp [numT, Term.value, exc_pure]

/-- C3: running `Operation(And, [Unify(x, 1), Unify(x, 2)])` from any frame
in which `x` is unbound yields the empty result sequence: the first conjunct
binds `x` to `1` and the second conjunct's unify of `x` with `2` then
fails. -/
theorem claim_C3_conflicting_unify (n : Nat) (kb : KnowledgeBase) (st : State) (v : Variable)
    (h : getB st.bindings v.name = none) :
    runTerm (n + 9) kb (conflictGoal v) st = .ok [] := by
  rw [show n + 9 = n+1+1+1+1+1+1+1+1+1 from rfl]
  have h1 := unify_unbound_num (n+1+1) st v 1 h
  have h2 := unify_bound_num_ne n ⟨insertB st.bindings v.name (numT 1)⟩ v 1 2
    (by decide) (getB_insertB_self st.bindings v.name (numT 1))
  simp [conflictGoal, andT, unifyT, runTerm, runOp, runAnd, runSeq, h1, h2,
    exc_bind_ok, exc_pure]

theorem claim_C3_witness :
    runTerm 9 emptyKB (conflictGoal { name := xName, type_info := none }) ⟨[]⟩ = .ok [] :=
  claim_C3_conflicting_unify 0 emptyKB ⟨[]⟩ { name := xName, type_info := none } (by rfl)

end Polar
